import Mathlib

/-!
Shallow embedding of `src/decorators.ts` (sequelizejs-decorators).

The source attaches a mutable metadata record to each decorated class's
prototype (`__sequelize_meta__.entities`, an array of records looked up by
`record.name === target.constructor.name`), and `registerEntities` later
consumes that metadata in two passes against the mapping engine.

Modelling choices, all taken from the source:
* JavaScript objects used as string-keyed dictionaries (`meta.fields`,
  `meta.associations`, `sequelize.models`) become association lists
  `List (String × _)` with `setKey` (update-in-place-or-append), which is
  exactly JS property-assignment order semantics.
* A JS value that may be `null`/`undefined` becomes an `Option`; a key that
  may be absent from an options object likewise becomes an `Option` field
  (so the source's `clean`, which deletes keys holding `null`, is the
  identity on this representation).
* `createdAt` / `updatedAt` options hold either `false` or a column-name
  string in the source, so they are `Option TimestampSetting` here with
  `TimestampSetting.off` standing for `false` (note `false == null` and
  `"s" == null` are both false in JS, matching the `Option.none` test).
* The Sequelize engine itself is external to the repository; it is modelled
  abstractly: `define` stores a `ModelHandle` under the given name, and an
  association-creation call is recorded as an `AssocAccessor` holding the
  method name, the (possibly missing) target model, and the options — the
  assignment `model[assnName] = model[method](...)` stores that record.
  The `trace` field records every engine call in order.
-/

namespace SD

/-- Association options (`AssociationOptions` in the source); `as` and
`through` are the keys the decorators inspect, everything else is kept as an
opaque key/value list. -/
structure AssociationOptions where
  asName : Option String := none
  through : Option String := none
  extra : List (String × String) := []
deriving DecidableEq, Repr

/-- One stored association (`IEntityAssociation` in the source). The deferred
`target` thunk `() => Function` is modelled by the class name it resolves to
(the source only ever uses `entityAssociation.target().name`). -/
structure IEntityAssociation where
  target : String
  method : String
  association : AssociationOptions
deriving DecidableEq, Repr

/-- The value of the `createdAt` / `updatedAt` define option: the source
stores either `false` (no timestamp column) or a column-name string. -/
inductive TimestampSetting
  | off
  | col (name : String)
deriving DecidableEq, Repr

/-- One index entry (`DefineIndexesOptions` as used by the source). -/
structure IndexDef where
  name : Option String := none
  unique : Option Bool := none
  fields : List String := []
deriving DecidableEq, Repr

/-- A column definition (`DefineAttributeColumnOptions`); only the parts the
source itself constructs (`PrimaryGeneratedColumn`) are given structure, the
rest is an opaque key/value list. -/
structure ColumnDef where
  typeName : String := ""
  primaryKey : Bool := false
  autoIncrement : Bool := false
  extra : List (String × String) := []
deriving DecidableEq, Repr

/-- Engine define options (`DefineOptions`): the keys the source reads or
writes (`createdAt`, `updatedAt`, `indexes`) plus opaque remaining keys. -/
structure DefineOptions where
  createdAt : Option TimestampSetting := none
  updatedAt : Option TimestampSetting := none
  indexes : Option (List IndexDef) := none
  extra : List (String × String) := []
deriving DecidableEq, Repr

/-- Per-class metadata record (`IEntity` in the source). -/
structure IEntity where
  name : String
  fields : List (String × ColumnDef) := []
  associations : List (String × IEntityAssociation) := []
  options : DefineOptions := {}
deriving DecidableEq, Repr

/-- The metadata store: the `__sequelize_meta__.entities` array. -/
abbrev Store := List IEntity

/-- JS property assignment on an object-as-dictionary: overwrite the entry if
the key exists, otherwise append it (JS keeps insertion order). -/
def setKey {α : Type} : List (String × α) → String → α → List (String × α)
  | [], k, v => [(k, v)]
  | p :: rest, k, v => if p.1 = k then (k, v) :: rest else p :: setKey rest k v

theorem setKey_lookup_self {α : Type} (l : List (String × α)) (k : String) (v : α) :
    List.lookup k (setKey l k v) = some v := by
  induction l with
  | nil => simp [setKey, List.lookup]
  | cons p rest ih =>
    by_cases h : p.1 = k
    · simp [setKey, h, List.lookup]
    · simp only [setKey, if_neg h, List.lookup]
      have : (k == p.1) = false := by
        simp [beq_iff_eq]; exact fun hk => h hk.symm
      simp [this, ih]

theorem setKey_lookup_ne {α : Type} (l : List (String × α)) (k k' : String) (v : α)
    (h : k' ≠ k) : List.lookup k' (setKey l k v) = List.lookup k' l := by
  induction l with
  | nil =>
    have hb : (k' == k) = false := beq_eq_false_iff_ne.mpr h
    simp [setKey, List.lookup, hb]
  | cons p rest ih =>
    by_cases hp : p.1 = k
    · obtain ⟨pk, pv⟩ := p
      simp only at hp
      subst hp
      have hb : (k' == pk) = false := beq_eq_false_iff_ne.mpr h
      simp [setKey, List.lookup, hb]
    · simp only [setKey, if_neg hp, List.lookup]
      by_cases hk : k' = p.1
      · simp [hk]
      · have hb : (k' == p.1) = false := beq_eq_false_iff_ne.mpr hk
        simp [hb, ih]

theorem setKey_fresh {α : Type} (l : List (String × α)) (k : String) (v : α)
    (h : List.lookup k l = none) : setKey l k v = l ++ [(k, v)] := by
  induction l with
  | nil => simp [setKey]
  | cons p rest ih =>
    simp only [List.lookup] at h
    by_cases hp : k = p.1
    · have hb : (k == p.1) = true := beq_iff_eq.mpr hp
      rw [hb] at h
      simp at h
    · have hb : (k == p.1) = false := beq_eq_false_iff_ne.mpr hp
      rw [hb] at h
      simp only at h
      have hp' : p.1 ≠ k := fun he => hp he.symm
      simp [setKey, hp', ih h]

/-- A fresh metadata record, as `getMeta` creates it. -/
def defaultEntity (cls : String) : IEntity := { name := cls }

/-- The read half of `getMeta`: the first record whose `name` equals the
class name, or the fresh record `getMeta` would create. -/
def metaOf : Store → String → IEntity
  | [], cls => defaultEntity cls
  | e :: rest, cls => if e.name = cls then e else metaOf rest cls

/-- The write half of `getMeta`: push a fresh record if none matches. -/
def ensureMeta : Store → String → Store
  | [], cls => [defaultEntity cls]
  | e :: rest, cls => if e.name = cls then e :: rest else e :: ensureMeta rest cls

/-- `getMeta` followed by an in-place mutation `f` of the returned record. -/
def withMeta (cls : String) (f : IEntity → IEntity) : Store → Store
  | [] => [f (defaultEntity cls)]
  | e :: rest => if e.name = cls then f e :: rest else e :: withMeta cls f rest

theorem metaOf_name (s : Store) (cls : String) : (metaOf s cls).name = cls := by
  induction s with
  | nil => rfl
  | cons e rest ih =>
    by_cases h : e.name = cls
    · simp [metaOf, h]
    · simp [metaOf, h, ih]

theorem metaOf_ensureMeta (s : Store) (cls c : String) :
    metaOf (ensureMeta s cls) c = metaOf s c := by
  induction s with
  | nil =>
    by_cases h : cls = c
    · simp [ensureMeta, metaOf, defaultEntity, h]
    · simp [ensureMeta, metaOf, defaultEntity, h]
  | cons e rest ih =>
    by_cases h : e.name = cls
    · simp [ensureMeta, h, metaOf]
    · rw [show ensureMeta (e :: rest) cls = e :: ensureMeta rest cls from by
        simp [ensureMeta, h]]
      by_cases hc : e.name = c
      · simp [metaOf, hc]
      · simp [metaOf, hc, ih]

theorem ensureMeta_eq_withMeta_id (s : Store) (cls : String) :
    ensureMeta s cls = withMeta cls id s := by
  induction s with
  | nil => rfl
  | cons e rest ih =>
    by_cases h : e.name = cls
    · simp [ensureMeta, withMeta, h]
    · simp [ensureMeta, withMeta, h, ih]

theorem metaOf_withMeta (s : Store) (cls c : String) (f : IEntity → IEntity)
    (h : ∀ e : IEntity, e.name = cls → (f e).name = cls) :
    metaOf (withMeta cls f s) c = if c = cls then f (metaOf s cls) else metaOf s c := by
  induction s with
  | nil =>
    have hd : (f (defaultEntity cls)).name = cls := h _ rfl
    by_cases hc : c = cls
    · simp [withMeta, metaOf, hd, hc]
    · have : (f (defaultEntity cls)).name ≠ c := by rw [hd]; exact fun he => hc he.symm
      simp [withMeta, metaOf, this, hc]
  | cons e rest ih =>
    by_cases he : e.name = cls
    · have hf : (f e).name = cls := h e he
      rw [show withMeta cls f (e :: rest) = f e :: rest from by simp [withMeta, he]]
      by_cases hc : c = cls
      · subst hc
        simp [metaOf, hf, he]
      · have h1 : ¬(f e).name = c := by rw [hf]; exact fun hx => hc hx.symm
        have h2 : ¬e.name = c := by rw [he]; exact fun hx => hc hx.symm
        simp [metaOf, h1, h2, hc]
    · rw [show withMeta cls f (e :: rest) = e :: withMeta cls f rest from by
        simp [withMeta, he]]
      by_cases hc2 : e.name = c
      · have hcc : c ≠ cls := fun hx => he (hc2.trans hx)
        simp [metaOf, hc2, hcc]
      · simp [metaOf, hc2, he, ih]

theorem lookup_append {α : Type} (l1 l2 : List (String × α)) (k : String) :
    List.lookup k (l1 ++ l2) =
      match List.lookup k l1 with
      | some v => some v
      | none => List.lookup k l2 := by
  induction l1 with
  | nil => simp [List.lookup]
  | cons p rest ih =>
    by_cases h : k = p.1
    · have hb : (k == p.1) = true := beq_iff_eq.mpr h
      simp [List.lookup, hb]
    · have hb : (k == p.1) = false := beq_eq_false_iff_ne.mpr h
      simp [List.lookup, hb, ih]

theorem setKey_setKey {α : Type} (l : List (String × α)) (k : String) (v1 v2 : α) :
    setKey (setKey l k v1) k v2 = setKey l k v2 := by
  induction l with
  | nil => simp [setKey]
  | cons p rest ih =>
    by_cases h : p.1 = k
    · simp [setKey, h]
    · simp [setKey, h, ih]

theorem lookup_map_self {β : Type} (es : List String) (g : String → β) (k : String) :
    List.lookup k (es.map fun e => (e, g e)) =
      if k ∈ es then some (g k) else none := by
  induction es with
  | nil => simp [List.lookup]
  | cons e rest ih =>
    by_cases h : k = e
    · subst h
      simp [List.lookup]
    · have hb : (k == e) = false := beq_eq_false_iff_ne.mpr h
      simp [List.lookup, hb, ih, h]

theorem setKey_map_mem {β : Type} (ks : List String) (g : String → β) (e : String) (v : β)
    (hmem : e ∈ ks) (hnd : ks.Nodup) :
    setKey (ks.map fun x => (x, g x)) e v =
      ks.map fun x => (x, if x = e then v else g x) := by
  induction ks with
  | nil => cases hmem
  | cons a rest ih =>
    rw [List.nodup_cons] at hnd
    by_cases ha : a = e
    · subst ha
      simp only [List.map_cons, setKey, if_pos rfl, if_pos rfl]
      have hcong : ∀ x ∈ rest, (x, if x = a then v else g x) = (x, g x) := by
        intro x hx
        have : x ≠ a := fun hxa => hnd.1 (hxa ▸ hx)
        simp [this]
      rw [List.map_congr_left hcong]
      simp
    · have hmem' : e ∈ rest := by
        cases hmem with
        | head => exact absurd rfl ha
        | tail _ h => exact h
      simp only [List.map_cons, setKey, ha, if_neg ha, if_false]
      rw [ih hmem' hnd.2]

/-- The store-level frame of one `getMeta`-based mutation: only the first
record named `cls` is replaced (by `f` of it), or, when no record carries
that name, a fresh record is appended; every other record is untouched. -/
def FramedAt (s after : Store) (cls : String) (f : IEntity → IEntity) : Prop :=
  (∃ pre e post, s = pre ++ e :: post ∧ (∀ x ∈ pre, x.name ≠ cls) ∧ e.name = cls ∧
    after = pre ++ f e :: post) ∨
  ((∀ x ∈ s, x.name ≠ cls) ∧ after = s ++ [f (defaultEntity cls)])

theorem withMeta_framed (s : Store) (cls : String) (f : IEntity → IEntity) :
    FramedAt s (withMeta cls f s) cls f := by
  induction s with
  | nil =>
    right
    exact ⟨by simp, by simp [withMeta]⟩
  | cons e rest ih =>
    by_cases he : e.name = cls
    · left
      exact ⟨[], e, rest, by simp, by simp, he, by simp [withMeta, he]⟩
    · rcases ih with ⟨pre, e0, post, hs, hpre, he0, hafter⟩ | ⟨hall, hafter⟩
      · left
        refine ⟨e :: pre, e0, post, by simp [hs], ?_, he0, ?_⟩
        · intro x hx
          cases hx with
          | head => exact he
          | tail _ h => exact hpre x h
        · simp [withMeta, he, hafter]
      · right
        refine ⟨?_, ?_⟩
        · intro x hx
          cases hx with
          | head => exact he
          | tail _ h => exact hall x h
        · simp [withMeta, he, hafter]

/-- Options accepted by the `Index` decorator (`IIndexOptions`). -/
structure IIndexOptions where
  name : Option String := none
  unique : Option Bool := none
deriving DecidableEq, Repr

/-- `Object.assign({}, base, override)` on two extra-options objects:
`override`'s values win on shared keys; `base`'s key order is kept, keys only
in `override` are appended in order. -/
def mergeExtra (base override : List (String × String)) : List (String × String) :=
  (base.map fun p =>
    (p.1, match List.lookup p.1 override with
          | some v => v
          | none => p.2)) ++
    override.filter fun p => !(base.any fun q => q.1 == p.1)

/-- `Object.assign({}, base, override)` on two define-options objects: a key
is present iff it is present in `override` or in `base`, `override` winning. -/
def mergeOptions (base override : DefineOptions) : DefineOptions where
  createdAt := match override.createdAt with
    | some v => some v
    | none => base.createdAt
  updatedAt := match override.updatedAt with
    | some v => some v
    | none => base.updatedAt
  indexes := match override.indexes with
    | some v => some v
    | none => base.indexes
  extra := mergeExtra base.extra override.extra

theorem mergeExtra_nil_left (l : List (String × String)) : mergeExtra [] l = l := by
  simp only [mergeExtra, List.map_nil, List.nil_append, List.any_nil,
    Bool.not_false]
  induction l with
  | nil => rfl
  | cons p rest ih => simp [List.filter, ih]

theorem lookup_mergeExtra_map (base ov : List (String × String)) (k : String) :
    List.lookup k (base.map fun p =>
      (p.1, match List.lookup p.1 ov with
            | some v => v
            | none => p.2)) =
      (List.lookup k base).map fun pv =>
        match List.lookup k ov with
        | some v => v
        | none => pv := by
  induction base with
  | nil => simp [List.lookup]
  | cons q rest ih =>
    by_cases h : k = q.1
    · have hb : (k == q.1) = true := beq_iff_eq.mpr h
      simp [List.lookup, hb, h]
    · have hb : (k == q.1) = false := beq_eq_false_iff_ne.mpr h
      simp [List.lookup, hb, ih]

theorem lookup_filter_of_keyTrue {α : Type} (l : List (String × α))
    (pred : String × α → Bool) (k : String)
    (h : ∀ p ∈ l, p.1 = k → pred p = true) :
    List.lookup k (l.filter pred) = List.lookup k l := by
  induction l with
  | nil => simp
  | cons p rest ih =>
    by_cases hk : p.1 = k
    · have hp : pred p = true := h p (List.mem_cons_self p rest) hk
      have hb : (k == p.1) = true := beq_iff_eq.mpr hk.symm
      simp [List.filter, hp, List.lookup, hb]
    · have hb : (k == p.1) = false := beq_eq_false_iff_ne.mpr fun he => hk he.symm
      cases hp : pred p with
      | true =>
        simp only [List.filter, hp, List.lookup, hb]
        exact ih fun q hq => h q (List.mem_cons_of_mem p hq)
      | false =>
        simp only [List.filter, hp, List.lookup, hb]
        exact ih fun q hq => h q (List.mem_cons_of_mem p hq)

theorem any_key_eq_isSome_lookup {α : Type} (l : List (String × α)) (k : String) :
    (l.any fun q => q.1 == k) = (List.lookup k l).isSome := by
  induction l with
  | nil => simp [List.lookup]
  | cons p rest ih =>
    by_cases h : p.1 = k
    · have hb : (p.1 == k) = true := beq_iff_eq.mpr h
      have hb' : (k == p.1) = true := beq_iff_eq.mpr h.symm
      simp [List.any, hb, List.lookup, hb']
    · have hb : (p.1 == k) = false := beq_eq_false_iff_ne.mpr h
      have hb' : (k == p.1) = false := beq_eq_false_iff_ne.mpr fun he => h he.symm
      simp [List.any, hb, List.lookup, hb', ih]

/-- The merged extra options keep every value present in the overriding
object (`Object.assign`: the later source wins). -/
theorem mergeExtra_lookup_right (base ov : List (String × String)) (k v : String)
    (h : List.lookup k ov = some v) :
    List.lookup k (mergeExtra base ov) = some v := by
  rw [mergeExtra, lookup_append, lookup_mergeExtra_map]
  cases hb : List.lookup k base with
  | some pv => simp [h]
  | none =>
    have hfilter : List.lookup k (ov.filter fun p => !(base.any fun q => q.1 == p.1)) =
        some v := by
      rw [lookup_filter_of_keyTrue]
      · exact h
      · intro p _ hp
        rw [hp, any_key_eq_isSome_lookup, hb]
        rfl
    exact hfilter

theorem mergeOptions_default_left (o : DefineOptions) : mergeOptions {} o = o := by
  obtain ⟨c, u, i, ex⟩ := o
  cases c <;> cases u <;> cases i <;>
    simp [mergeOptions, mergeExtra_nil_left]

/-- The first argument of the `Entity` decorator, which the source overloads:
absent, a string name, or an options object passed in name position. -/
inductive NameArg
  | noArg
  | str (s : String)
  | obj (o : DefineOptions)
deriving DecidableEq, Repr

/-- The effect of the `Entity` decorator body on the class's record: set the
name, merge the options (existing metadata options win), then default
`createdAt` / `updatedAt` to `false` when still unset. -/
def entityUpd (nameArg : NameArg) (options : Option DefineOptions) (cls : String)
    (m : IEntity) : IEntity :=
  let m1 :=
    match nameArg with
    | .str n => { m with name := n }
    | _ => { m with name := cls }
  let options1 : Option DefineOptions :=
    match nameArg, options with
    | .obj o, none => some (mergeOptions o m1.options)
    | _, _ => options
  let o2 := mergeOptions (options1.getD {}) m1.options
  let o3 : DefineOptions :=
    { o2 with
      createdAt := match o2.createdAt with
        | some v => some v
        | none => some .off
      updatedAt := match o2.updatedAt with
        | some v => some v
        | none => some .off }
  { m1 with options := o3 }

/-- The `Entity` class decorator. -/
def Entity (nameArg : NameArg) (options : Option DefineOptions) (cls : String)
    (s : Store) : Store :=
  withMeta cls (entityUpd nameArg options cls) s

/-- `meta.fields[key] = attribute`. -/
def columnUpd (key : String) (attr : ColumnDef) (m : IEntity) : IEntity :=
  { m with fields := setKey m.fields key attr }

/-- The `Column` property decorator. -/
def Column (attr : ColumnDef) (cls key : String) (s : Store) : Store :=
  withMeta cls (columnUpd key attr) s

/-- `meta.options.createdAt = key`. -/
def createdUpd (key : String) (m : IEntity) : IEntity :=
  { m with options := { m.options with createdAt := some (.col key) } }

/-- The `CreatedDateColumn` property decorator. -/
def CreatedDateColumn (cls key : String) (s : Store) : Store :=
  withMeta cls (createdUpd key) s

/-- `meta.options.updatedAt = key`. -/
def updatedUpd (key : String) (m : IEntity) : IEntity :=
  { m with options := { m.options with updatedAt := some (.col key) } }

/-- The `UpdatedDateColumn` property decorator. -/
def UpdatedDateColumn (cls key : String) (s : Store) : Store :=
  withMeta cls (updatedUpd key) s

/-- The column definition `PrimaryGeneratedColumn` writes. -/
def pkColumn : ColumnDef :=
  { typeName := "INTEGER", primaryKey := true, autoIncrement := true }

/-- The `PrimaryGeneratedColumn` property decorator. -/
def PrimaryGeneratedColumn (cls key : String) (s : Store) : Store :=
  withMeta cls (columnUpd key pkColumn) s

/-- Default the options object and overwrite its `as` key with the decorated
property name, as every association decorator does. -/
def setAs (options : Option AssociationOptions) (key : String) : AssociationOptions :=
  { options.getD {} with asName := some key }

/-- `meta.associations[key] = { method, target, association }`. -/
def assocUpd (key : String) (a : IEntityAssociation) (m : IEntity) : IEntity :=
  { m with associations := setKey m.associations key a }

/-- The `HasOne` property decorator; `typeF` is the class name the deferred
`typeFunction` thunk resolves to. -/
def HasOne (typeF : String) (options : Option AssociationOptions) (cls key : String)
    (s : Store) : Store :=
  withMeta cls (assocUpd key ⟨typeF, "hasOne", setAs options key⟩) s

/-- The `HasMany` property decorator. -/
def HasMany (typeF : String) (options : Option AssociationOptions) (cls key : String)
    (s : Store) : Store :=
  withMeta cls (assocUpd key ⟨typeF, "hasMany", setAs options key⟩) s

/-- The `BelongsTo` property decorator. -/
def BelongsTo (typeF : String) (options : Option AssociationOptions) (cls key : String)
    (s : Store) : Store :=
  withMeta cls (assocUpd key ⟨typeF, "belongsTo", setAs options key⟩) s

/-- The `ManyToMany` property decorator. It calls `getMeta` first, then throws
when no `through` option is given; the thrown message is returned in the
second component (`none` = no throw). Note that on the throw path the store
still contains the record `getMeta` may have just created. -/
def ManyToMany (typeF : String) (options : Option AssociationOptions) (cls key : String)
    (s : Store) : Store × Option String :=
  if (options.getD {}).through = none then
    (ensureMeta s cls, some "through property is required for belongs to many association")
  else
    (withMeta cls (assocUpd key ⟨typeF, "belongsToMany", setAs options key⟩) s, none)

/-- The effect of the `Index` decorator body on the class's record. The source
mutates the found index object in place and pushes the very same object onto
the `indexes` array again, so every array entry carrying that name (they are
all aliases of one object) shows the appended field; mapping over all
same-name entries and appending a copy models that aliasing. `clean` (which
deletes keys holding `null`) is the identity on this `Option`-field
representation. -/
def indexListUpd (o : IIndexOptions) (key : String) (idxs : List IndexDef) : List IndexDef :=
  match o.name with
  | some n =>
    match idxs.find? (fun i => decide (i.name = some n)) with
    | some i0 =>
      let newFields := i0.fields ++ [key]
      (idxs.map fun i => if i.name = some n then { i with fields := newFields } else i) ++
        [{ i0 with fields := newFields }]
    | none => idxs ++ [{ name := some n, unique := o.unique, fields := [key] }]
  | none => idxs ++ [{ name := none, unique := o.unique, fields := [key] }]

def indexUpd (o : IIndexOptions) (key : String) (m : IEntity) : IEntity :=
  { m with options :=
      { m.options with indexes := some (indexListUpd o key (m.options.indexes.getD [])) } }

/-- The `Index` property decorator. -/
def Index (options : Option IIndexOptions) (cls key : String) (s : Store) : Store :=
  withMeta cls (indexUpd (options.getD {}) key) s

/-- The result of an association-creation call on the engine, as assigned to
`model[assnName]`: the method used, the name of the target model handed to
the engine (`none` when `sequelize.models[targetName]` was undefined), and
the association options. -/
structure AssocAccessor where
  method : String
  target : Option String
  association : AssociationOptions
deriving DecidableEq, Repr

/-- An engine model handle, as produced by `sequelize.define` and later
mutated by the accessor assignments of pass 2. -/
structure ModelHandle where
  name : String
  fields : List (String × ColumnDef) := []
  options : DefineOptions := {}
  accessors : List (String × AssocAccessor) := []
deriving DecidableEq, Repr

/-- One call made on the mapping engine. -/
inductive EngineCall
  | defineCall (name : String)
  | assocCall (model : String) (asName : String) (method : String) (target : Option String)
deriving DecidableEq, Repr

def isDefineCall : EngineCall → Bool
  | .defineCall _ => true
  | .assocCall _ _ _ _ => false

/-- State threaded through `registerEntities`: the (mutable) metadata store,
the engine's `sequelize.models` mapping, and the ordered engine-call trace. -/
structure RegState where
  store : Store
  models : List (String × ModelHandle) := []
  trace : List EngineCall := []
deriving DecidableEq, Repr

/-- `sequelize.define(meta.name, meta.fields, meta.options)`. -/
def mkModel (m : IEntity) : ModelHandle :=
  { name := m.name, fields := m.fields, options := m.options }

/-- One iteration of pass 1: `getMeta` on a throwaway instance, then define
the model under `meta.name`. -/
def defineStep (st : RegState) (cls : String) : RegState :=
  let meta := metaOf st.store cls
  { store := ensureMeta st.store cls
    models := setKey st.models meta.name (mkModel meta)
    trace := st.trace ++ [.defineCall meta.name] }

def passOne (st : RegState) (entities : List String) : RegState :=
  entities.foldl defineStep st

/-- One association-creation call of pass 2:
`model[assnName] = model[method](sequelize.models[targetName], options)`,
with the target looked up in the current `models` mapping. -/
def addAssoc (cls : String) (st : RegState) (p : String × IEntityAssociation) : RegState :=
  match List.lookup cls st.models with
  | none => st
  | some model =>
    let tgt := List.lookup p.2.target st.models
    let acc : AssocAccessor :=
      { method := p.2.method, target := tgt.map (fun t => t.name),
        association := p.2.association }
    { st with
      models := setKey st.models cls { model with accessors := setKey model.accessors p.1 acc }
      trace := st.trace ++ [.assocCall cls p.1 p.2.method (tgt.map (fun t => t.name))] }

/-- One iteration of pass 2: `getMeta` again, look the model up under the
CLASS name (`sequelize.models[entity.name]`), and only if it exists walk the
record's associations. -/
def assocStep (st : RegState) (cls : String) : RegState :=
  let meta := metaOf st.store cls
  let st1 : RegState := { st with store := ensureMeta st.store cls }
  match List.lookup cls st1.models with
  | none => st1
  | some _ => meta.associations.foldl (addAssoc cls) st1

def passTwo (st : RegState) (entities : List String) : RegState :=
  entities.foldl assocStep st

/-- `registerEntities(sequelize, entities)`, with the full final state. -/
def registerEntitiesFull (s : Store) (entities : List String) : RegState :=
  passTwo (passOne { store := s } entities) entities

/-- The return value of `registerEntities`: the `sequelize.models` mapping. -/
def registerEntities (s : Store) (entities : List String) : List (String × ModelHandle) :=
  (registerEntitiesFull s entities).models

/-- The accessor pass 2 records for one declared association, given the keys
under which pass 1 registered models. -/
def accessorFor (keys : List String) (a : IEntityAssociation) : AssocAccessor :=
  { method := a.method,
    target := if a.target ∈ keys then some a.target else none,
    association := a.association }

/-- The accessor mapping pass 2 builds for one entity from its stored
associations (in declaration order, later duplicates overwriting). -/
def expectedAccessors (keys : List String) (assocs : List (String × IEntityAssociation)) :
    List (String × AssocAccessor) :=
  assocs.foldl (fun l p => setKey l p.1 (accessorFor keys p.2)) []

/-- The model handle `registerEntities` leaves for an entity: pass 1's
defined model plus pass 2's accessors. -/
def finalModel (s : Store) (keys : List String) (e : String) : ModelHandle :=
  { mkModel (metaOf s e) with accessors := expectedAccessors keys (metaOf s e).associations }

theorem entityUpd_name (nameArg : NameArg) (options : Option DefineOptions)
    (cls : String) (m : IEntity) :
    (entityUpd nameArg options cls m).name =
      match nameArg with
      | .str n => n
      | _ => cls := by
  cases nameArg <;> rfl

theorem entityUpd_fields (nameArg : NameArg) (options : Option DefineOptions)
    (cls : String) (m : IEntity) :
    (entityUpd nameArg options cls m).fields = m.fields := by
  cases nameArg <;> rfl

theorem entityUpd_associations (nameArg : NameArg) (options : Option DefineOptions)
    (cls : String) (m : IEntity) :
    (entityUpd nameArg options cls m).associations = m.associations := by
  cases nameArg <;> rfl

theorem entityUpd_createdAt_some (nameArg : NameArg) (options : Option DefineOptions)
    (cls : String) (m : IEntity) (v : TimestampSetting)
    (h : m.options.createdAt = some v) :
    (entityUpd nameArg options cls m).options.createdAt = some v := by
  cases nameArg <;> cases options <;>
    simp [entityUpd, mergeOptions, h]

theorem entityUpd_updatedAt_some (nameArg : NameArg) (options : Option DefineOptions)
    (cls : String) (m : IEntity) (v : TimestampSetting)
    (h : m.options.updatedAt = some v) :
    (entityUpd nameArg options cls m).options.updatedAt = some v := by
  cases nameArg <;> cases options <;>
    simp [entityUpd, mergeOptions, h]

theorem entityUpd_indexes_some (nameArg : NameArg) (options : Option DefineOptions)
    (cls : String) (m : IEntity) (l : List IndexDef)
    (h : m.options.indexes = some l) :
    (entityUpd nameArg options cls m).options.indexes = some l := by
  cases nameArg <;> cases options <;>
    simp [entityUpd, mergeOptions, h]

theorem entityUpd_extra_lookup (nameArg : NameArg) (options : Option DefineOptions)
    (cls : String) (m : IEntity) (k v : String)
    (h : List.lookup k m.options.extra = some v) :
    List.lookup k (entityUpd nameArg options cls m).options.extra = some v := by
  cases nameArg <;> cases options <;>
    simp [entityUpd, mergeOptions, mergeExtra_lookup_right _ _ _ _ h]

theorem entityUpd_createdAt_none (nameArg : NameArg) (options : Option DefineOptions)
    (cls : String) (m : IEntity)
    (h : m.options.createdAt = none)
    (ho : (options.getD {}).createdAt = none)
    (hobj : ∀ o : DefineOptions, nameArg = .obj o → o.createdAt = none) :
    (entityUpd nameArg options cls m).options.createdAt = some .off := by
  cases nameArg with
  | noArg => cases options <;> simp_all [entityUpd, mergeOptions]
  | str n => cases options <;> simp_all [entityUpd, mergeOptions]
  | obj o =>
    have := hobj o rfl
    cases options <;> simp_all [entityUpd, mergeOptions]

theorem entityUpd_updatedAt_none (nameArg : NameArg) (options : Option DefineOptions)
    (cls : String) (m : IEntity)
    (h : m.options.updatedAt = none)
    (ho : (options.getD {}).updatedAt = none)
    (hobj : ∀ o : DefineOptions, nameArg = .obj o → o.updatedAt = none) :
    (entityUpd nameArg options cls m).options.updatedAt = some .off := by
  cases nameArg with
  | noArg => cases options <;> simp_all [entityUpd, mergeOptions]
  | str n => cases options <;> simp_all [entityUpd, mergeOptions]
  | obj o =>
    have := hobj o rfl
    cases options <;> simp_all [entityUpd, mergeOptions]

theorem entityUpd_noArg_idem (cls : String) (m : IEntity) :
    entityUpd .noArg none cls (entityUpd .noArg none cls m) =
      entityUpd .noArg none cls m := by
  obtain ⟨n, flds, assoc, opts⟩ := m
  obtain ⟨c, u, i, ex⟩ := opts
  cases c <;> cases u <;>
    simp [entityUpd, mergeOptions_default_left]

/-- Repeating a `getMeta`-based mutation is the identity when the mutation
keeps the record findable and is itself idempotent on found records. -/
theorem withMeta_idem (s : Store) (cls : String) (f : IEntity → IEntity)
    (h1 : ∀ e : IEntity, e.name = cls → (f e).name = cls)
    (h2 : ∀ e : IEntity, e.name = cls → f (f e) = f e) :
    withMeta cls f (withMeta cls f s) = withMeta cls f s := by
  induction s with
  | nil =>
    have hd : (f (defaultEntity cls)).name = cls := h1 (defaultEntity cls) rfl
    simp [withMeta, hd, h2 (defaultEntity cls) rfl]
  | cons e rest ih =>
    by_cases he : e.name = cls
    · have hf : (f e).name = cls := h1 e he
      simp [withMeta, he, hf, h2 e he]
    · simp [withMeta, he, ih]

theorem setKey_self_of_lookup {α : Type} (l : List (String × α)) (k : String) (v : α)
    (h : List.lookup k l = some v) : setKey l k v = l := by
  induction l with
  | nil => simp [List.lookup] at h
  | cons p rest ih =>
    by_cases hp : k = p.1
    · obtain ⟨pk, pv⟩ := p
      simp only at hp
      subst hp
      simp only [List.lookup, beq_self_eq_true] at h
      have hv : pv = v := by simpa using h
      simp [setKey, hv]
    · have hb : (k == p.1) = false := beq_eq_false_iff_ne.mpr hp
      simp only [List.lookup, hb] at h
      have hp' : p.1 ≠ k := fun he => hp he.symm
      simp [setKey, hp', ih h]

/-- The name of the model stored under a key, as pass 2's target lookup
observes it (`sequelize.models[targetName]` then `.name` via `define`). -/
def targetView (st : RegState) (t : String) : Option String :=
  (List.lookup t st.models).map fun m => m.name

theorem addAssoc_of_found (cls : String) (st : RegState) (p : String × IEntityAssociation)
    (M : ModelHandle) (hM : List.lookup cls st.models = some M) :
    addAssoc cls st p =
      { st with
        models := setKey st.models cls
          { M with accessors :=
              setKey M.accessors p.1 ⟨p.2.method, targetView st p.2.target, p.2.association⟩ }
        trace := st.trace ++ [.assocCall cls p.1 p.2.method (targetView st p.2.target)] } := by
  simp [addAssoc, hM, targetView]

theorem assocFold_char (cls : String) (assocs : List (String × IEntityAssociation))
    (st : RegState) (M : ModelHandle) (hM : List.lookup cls st.models = some M) :
    (assocs.foldl (addAssoc cls) st).store = st.store ∧
    (assocs.foldl (addAssoc cls) st).models =
      setKey st.models cls
        { M with accessors :=
            (assocs.foldl
              (fun l p => setKey l p.1 ⟨p.2.method, targetView st p.2.target, p.2.association⟩)
              M.accessors) } ∧
    ∃ tr, (assocs.foldl (addAssoc cls) st).trace = st.trace ++ tr ∧
      ∀ c ∈ tr, isDefineCall c = false := by
  induction assocs generalizing st M with
  | nil =>
    refine ⟨rfl, ?_, [], by simp, by simp⟩
    simp only [List.foldl_nil]
    exact (setKey_self_of_lookup st.models cls M hM).symm
  | cons p rest ih =>
    have hstep := addAssoc_of_found cls st p M hM
    have hmodels1 : (addAssoc cls st p).models =
        setKey st.models cls
          { M with accessors :=
              setKey M.accessors p.1 ⟨p.2.method, targetView st p.2.target, p.2.association⟩ } := by
      rw [hstep]
    have hstore1 : (addAssoc cls st p).store = st.store := by rw [hstep]
    have htrace1 : (addAssoc cls st p).trace =
        st.trace ++ [.assocCall cls p.1 p.2.method (targetView st p.2.target)] := by
      rw [hstep]
    have hM1 : List.lookup cls (addAssoc cls st p).models =
        some { M with accessors := setKey M.accessors p.1 ⟨p.2.method, targetView st p.2.target, p.2.association⟩ } := by
      rw [hmodels1]
      exact setKey_lookup_self _ _ _
    have hTV : targetView (addAssoc cls st p) = targetView st := by
      funext t
      by_cases ht : t = cls
      · subst ht
        simp only [targetView]
        rw [hmodels1, setKey_lookup_self, hM]
        rfl
      · simp only [targetView]
        rw [hmodels1, setKey_lookup_ne _ _ _ _ ht]
    obtain ⟨hstore, hmodels, tr, htr, htrall⟩ := ih (addAssoc cls st p) _ hM1
    refine ⟨?_, ?_, ?_⟩
    · rw [List.foldl_cons, hstore, hstore1]
    · rw [List.foldl_cons, hmodels, hTV, hmodels1, setKey_setKey]
      rfl
    · refine ⟨.assocCall cls p.1 p.2.method (targetView st p.2.target) :: tr, ?_, ?_⟩
      · rw [List.foldl_cons, htr, htrace1, List.append_assoc]
        rfl
      · intro c hc
        cases hc with
        | head => rfl
        | tail _ h => exact htrall c h

theorem assocStep_of_found (st : RegState) (cls : String) (M : ModelHandle)
    (hM : List.lookup cls st.models = some M) :
    assocStep st cls =
      (metaOf st.store cls).associations.foldl (addAssoc cls)
        { st with store := ensureMeta st.store cls } := by
  simp [assocStep, hM]

theorem passOne_char (es : List String) (st : RegState)
    (hnd : es.Nodup) (hfresh : ∀ e ∈ es, List.lookup e st.models = none) :
    (passOne st es).models =
      st.models ++ es.map (fun e => (e, mkModel (metaOf st.store e))) ∧
    (∀ c, metaOf (passOne st es).store c = metaOf st.store c) ∧
    (passOne st es).trace = st.trace ++ es.map EngineCall.defineCall := by
  induction es generalizing st with
  | nil => simp [passOne]
  | cons e rest ih =>
    rw [List.nodup_cons] at hnd
    have hname : (metaOf st.store e).name = e := metaOf_name st.store e
    have hstep_models : (defineStep st e).models =
        st.models ++ [(e, mkModel (metaOf st.store e))] := by
      simp only [defineStep, hname]
      exact setKey_fresh st.models e _ (hfresh e (List.mem_cons_self e rest))
    have hstep_store : ∀ c, metaOf (defineStep st e).store c = metaOf st.store c := by
      intro c
      simp only [defineStep]
      exact metaOf_ensureMeta st.store e c
    have hstep_trace : (defineStep st e).trace = st.trace ++ [.defineCall e] := by
      simp only [defineStep, hname]
    have hfresh' : ∀ e' ∈ rest, List.lookup e' (defineStep st e).models = none := by
      intro e' he'
      rw [hstep_models, lookup_append]
      have h1 : List.lookup e' st.models = none := hfresh e' (List.mem_cons_of_mem e he')
      have hne : e' ≠ e := fun hee => hnd.1 (hee ▸ he')
      have h2 : List.lookup e' [(e, mkModel (metaOf st.store e))] = none := by
        have hb : (e' == e) = false := beq_eq_false_iff_ne.mpr hne
        simp [List.lookup, hb]
      rw [h1, h2]
    obtain ⟨ihm, ihs, iht⟩ := ih (defineStep st e) hnd.2 hfresh'
    have hpass : passOne st (e :: rest) = passOne (defineStep st e) rest := rfl
    refine ⟨?_, ?_, ?_⟩
    · rw [hpass, ihm, hstep_models]
      have hmap : rest.map (fun e' => (e', mkModel (metaOf (defineStep st e).store e'))) =
          rest.map (fun e' => (e', mkModel (metaOf st.store e'))) := by
        apply List.map_congr_left
        intro x _
        rw [hstep_store x]
      rw [hmap, List.append_assoc]
      rfl
    · intro c
      rw [hpass, ihs c, hstep_store c]
    · rw [hpass, iht, hstep_trace, List.append_assoc]
      rfl

theorem passTwo_char (s0 : Store) (allKeys : List String) (hnd : allKeys.Nodup)
    (pending : List String) (st : RegState) (g : String → ModelHandle)
    (hst : ∀ c, metaOf st.store c = metaOf s0 c)
    (hm : st.models = allKeys.map fun e => (e, g e))
    (hname : ∀ e ∈ allKeys, (g e).name = e)
    (hpend : pending.Nodup)
    (hsub : ∀ e ∈ pending, e ∈ allKeys) :
    ∃ g' : String → ModelHandle,
      (passTwo st pending).models = allKeys.map (fun e => (e, g' e)) ∧
      (∀ e ∈ pending, g' e =
        { g e with accessors :=
            ((metaOf s0 e).associations.foldl
              (fun l p => setKey l p.1 (accessorFor allKeys p.2)) (g e).accessors) }) ∧
      (∀ e, e ∉ pending → g' e = g e) := by
  induction pending generalizing st g with
  | nil =>
    refine ⟨g, ?_, by simp, fun _ _ => rfl⟩
    simpa [passTwo] using hm
  | cons e rest ih =>
    rw [List.nodup_cons] at hpend
    have heK : e ∈ allKeys := hsub e (List.mem_cons_self e rest)
    have hlook : List.lookup e st.models = some (g e) := by
      rw [hm, lookup_map_self]
      simp [heK]
    have hstep := assocStep_of_found st e (g e) hlook
    have hlook1 : List.lookup e ({ st with store := ensureMeta st.store e } : RegState).models =
        some (g e) := hlook
    obtain ⟨hfstore, hfmodels, _, _, _⟩ :=
      assocFold_char e (metaOf st.store e).associations
        { st with store := ensureMeta st.store e } (g e) hlook1
    -- the target names pass 2 hands to the engine, written via key membership
    have hTV : targetView ({ st with store := ensureMeta st.store e } : RegState) =
        fun t => if t ∈ allKeys then some t else none := by
      funext t
      simp only [targetView]
      show (List.lookup t st.models).map (fun m => m.name) = _
      rw [hm, lookup_map_self]
      by_cases ht : t ∈ allKeys
      · simp [ht, hname t ht]
      · simp [ht]
    have hFacc : (fun (l : List (String × AssocAccessor)) (p : String × IEntityAssociation) =>
        setKey l p.1 ⟨p.2.method,
          targetView ({ st with store := ensureMeta st.store e } : RegState) p.2.target,
          p.2.association⟩) =
        (fun l p => setKey l p.1 (accessorFor allKeys p.2)) := by
      rw [hTV]
      funext l p
      rfl
    have hFe : (assocStep st e).models =
        setKey st.models e
          { g e with accessors :=
              ((metaOf s0 e).associations.foldl
                (fun l p => setKey l p.1 (accessorFor allKeys p.2)) (g e).accessors) } := by
      rw [hstep, hfmodels, hFacc, hst e]
    have hstore2 : ∀ c, metaOf (assocStep st e).store c = metaOf s0 c := by
      intro c
      rw [hstep, hfstore]
      show metaOf (ensureMeta st.store e) c = _
      rw [metaOf_ensureMeta, hst c]
    -- the models list after the step, in mapped form
    have hmodels2 : (assocStep st e).models = allKeys.map fun x => (x,
        if x = e then
          { g e with accessors :=
              ((metaOf s0 e).associations.foldl
                (fun l p => setKey l p.1 (accessorFor allKeys p.2)) (g e).accessors) }
        else g x) := by
      rw [hFe, hm, setKey_map_mem allKeys g e _ heK hnd]
    have hname2 : ∀ x ∈ allKeys, ((fun x => if x = e then
        { g e with accessors :=
            ((metaOf s0 e).associations.foldl
              (fun l p => setKey l p.1 (accessorFor allKeys p.2)) (g e).accessors) }
        else g x) x).name = x := by
      intro x hx
      by_cases hxe : x = e
      · subst hxe
        simp only [if_pos rfl]
        exact hname x hx
      · simp only [if_neg hxe]
        exact hname x hx
    obtain ⟨g', hg'models, hg'done, hg'keep⟩ :=
      ih (assocStep st e) _ hstore2 hmodels2 hname2 hpend.2
        (fun x hx => hsub x (List.mem_cons_of_mem e hx))
    refine ⟨g', ?_, ?_, ?_⟩
    · exact hg'models
    · intro x hx
      cases hx with
      | head =>
        rw [hg'keep e hpend.1]
        simp
      | tail _ hxr =>
        have hxe : x ≠ e := fun hxe => hpend.1 (hxe ▸ hxr)
        rw [hg'done x hxr]
        simp [hxe]
    · intro x hx
      have hxe : x ≠ e := fun hxe => hx (hxe ▸ List.mem_cons_self e rest)
      have hxr : x ∉ rest := fun hxr => hx (List.mem_cons_of_mem e hxr)
      rw [hg'keep x hxr]
      simp [hxe]

/-- `registerEntities` on pairwise-distinct class names: one model per listed
class, keyed by the CLASS name, holding the metadata `getMeta` finds under
that class name, with pass 2's accessors. -/
theorem registerEntities_char (s : Store) (es : List String) (hnd : es.Nodup) :
    registerEntities s es = es.map fun e => (e, finalModel s es e) := by
  obtain ⟨hm1, hst1, _⟩ := passOne_char es { store := s } hnd (by simp [List.lookup])
  have hm1' : (passOne { store := s } es).models =
      es.map fun e => (e, mkModel (metaOf s e)) := by
    simpa using hm1
  have hst1' : ∀ c, metaOf (passOne { store := s } es).store c = metaOf s c := hst1
  have hname1 : ∀ e ∈ es, (mkModel (metaOf s e)).name = e := by
    intro e _
    exact metaOf_name s e
  obtain ⟨g', hmodels, hdone, _⟩ :=
    passTwo_char s es hnd es (passOne { store := s } es)
      (fun e => mkModel (metaOf s e)) hst1' hm1' hname1 hnd (fun _ h => h)
  show (passTwo (passOne { store := s } es) es).models = _
  rw [hmodels]
  apply List.map_congr_left
  intro e he
  rw [hdone e he]
  rfl

theorem passOne_trace (es : List String) (st : RegState) :
    ∃ d, (passOne st es).trace = st.trace ++ d ∧ d.length = es.length ∧
      ∀ c ∈ d, isDefineCall c = true := by
  induction es generalizing st with
  | nil => exact ⟨[], by simp [passOne], rfl, by simp⟩
  | cons e rest ih =>
    obtain ⟨d, hd, hlen, hall⟩ := ih (defineStep st e)
    refine ⟨.defineCall (metaOf st.store e).name :: d, ?_, by simp [hlen], ?_⟩
    · show (passOne (defineStep st e) rest).trace = _
      rw [hd]
      show (st.trace ++ [.defineCall (metaOf st.store e).name]) ++ d = _
      rw [List.append_assoc]
      rfl
    · intro c hc
      cases hc with
      | head => rfl
      | tail _ h => exact hall c h

theorem addAssoc_trace (cls : String) (st : RegState) (p : String × IEntityAssociation) :
    ∃ a, (addAssoc cls st p).trace = st.trace ++ a ∧ ∀ c ∈ a, isDefineCall c = false := by
  cases h : List.lookup cls st.models with
  | none => exact ⟨[], by simp [addAssoc, h], by simp⟩
  | some model =>
    refine ⟨[.assocCall cls p.1 p.2.method
      ((List.lookup p.2.target st.models).map fun t => t.name)], ?_, ?_⟩
    · simp [addAssoc, h]
    · intro c hc
      cases hc with
      | head => rfl
      | tail _ h2 => cases h2

theorem foldAssoc_trace (cls : String) (assocs : List (String × IEntityAssociation))
    (st : RegState) :
    ∃ a, (assocs.foldl (addAssoc cls) st).trace = st.trace ++ a ∧
      ∀ c ∈ a, isDefineCall c = false := by
  induction assocs generalizing st with
  | nil => exact ⟨[], by simp, by simp⟩
  | cons p rest ih =>
    obtain ⟨a1, ha1, hall1⟩ := addAssoc_trace cls st p
    obtain ⟨a2, ha2, hall2⟩ := ih (addAssoc cls st p)
    refine ⟨a1 ++ a2, ?_, ?_⟩
    · show (rest.foldl (addAssoc cls) (addAssoc cls st p)).trace = _
      rw [ha2, ha1, List.append_assoc]
    · intro c hc
      rcases List.mem_append.mp hc with h | h
      · exact hall1 c h
      · exact hall2 c h

theorem assocStep_trace (st : RegState) (cls : String) :
    ∃ a, (assocStep st cls).trace = st.trace ++ a ∧ ∀ c ∈ a, isDefineCall c = false := by
  cases h : List.lookup cls st.models with
  | none =>
    refine ⟨[], ?_, by simp⟩
    simp [assocStep, h]
  | some model =>
    obtain ⟨a, ha, hall⟩ :=
      foldAssoc_trace cls (metaOf st.store cls).associations
        { st with store := ensureMeta st.store cls }
    refine ⟨a, ?_, hall⟩
    rw [show assocStep st cls = (metaOf st.store cls).associations.foldl (addAssoc cls)
      { st with store := ensureMeta st.store cls } from by simp [assocStep, h], ha]

theorem passTwo_trace (es : List String) (st : RegState) :
    ∃ a, (passTwo st es).trace = st.trace ++ a ∧ ∀ c ∈ a, isDefineCall c = false := by
  induction es generalizing st with
  | nil => exact ⟨[], by simp [passTwo], by simp⟩
  | cons e rest ih =>
    obtain ⟨a1, ha1, hall1⟩ := assocStep_trace st e
    obtain ⟨a2, ha2, hall2⟩ := ih (assocStep st e)
    refine ⟨a1 ++ a2, ?_, ?_⟩
    · show (passTwo (assocStep st e) rest).trace = _
      rw [ha2, ha1, List.append_assoc]
    · intro c hc
      rcases List.mem_append.mp hc with h | h
      · exact hall1 c h
      · exact hall2 c h

theorem lookup_registerEntities (s : Store) (es : List String) (e : String)
    (hnd : es.Nodup) (he : e ∈ es) :
    List.lookup e (registerEntities s es) = some (finalModel s es e) := by
  rw [registerEntities_char s es hnd, lookup_map_self]
  simp [he]

theorem foldAcc_lookup_of_not_mem (keys : List String)
    (assocs : List (String × IEntityAssociation)) (acc : List (String × AssocAccessor))
    (k : String) (h : k ∉ assocs.map Prod.fst) :
    List.lookup k (assocs.foldl (fun l p => setKey l p.1 (accessorFor keys p.2)) acc) =
      List.lookup k acc := by
  induction assocs generalizing acc with
  | nil => rfl
  | cons q rest ih =>
    simp only [List.map_cons, List.mem_cons, not_or] at h
    show List.lookup k (rest.foldl (fun l p => setKey l p.1 (accessorFor keys p.2))
      (setKey acc q.1 (accessorFor keys q.2))) = _
    rw [ih _ (by simpa using h.2), setKey_lookup_ne _ _ _ _ h.1]

theorem foldAcc_lookup_mem (keys : List String)
    (assocs : List (String × IEntityAssociation)) (k : String) (a : IEntityAssociation)
    (hk : (assocs.map Prod.fst).Nodup) (hmem : (k, a) ∈ assocs) :
    ∀ acc, List.lookup k
      (assocs.foldl (fun l p => setKey l p.1 (accessorFor keys p.2)) acc) =
        some (accessorFor keys a) := by
  induction assocs with
  | nil => cases hmem
  | cons q rest ih =>
    intro acc
    simp only [List.map_cons, List.nodup_cons] at hk
    cases hmem with
    | head =>
      show List.lookup k (rest.foldl (fun l p => setKey l p.1 (accessorFor keys p.2))
        (setKey acc k (accessorFor keys a))) = _
      rw [foldAcc_lookup_of_not_mem keys rest _ k hk.1, setKey_lookup_self]
    | tail _ h =>
      exact ih hk.2 h (setKey acc q.1 (accessorFor keys q.2))

theorem expectedAccessors_lookup (keys : List String)
    (assocs : List (String × IEntityAssociation)) (k : String) (a : IEntityAssociation)
    (hk : (assocs.map Prod.fst).Nodup) (hmem : (k, a) ∈ assocs) :
    List.lookup k (expectedAccessors keys assocs) = some (accessorFor keys a) :=
  foldAcc_lookup_mem keys assocs k a hk hmem []

theorem metaOf_of_not_named (s : Store) (cls : String)
    (h : ∀ e ∈ s, e.name ≠ cls) : metaOf s cls = defaultEntity cls := by
  induction s with
  | nil => rfl
  | cons e rest ih =>
    have he : e.name ≠ cls := h e (List.mem_cons_self e rest)
    simp only [metaOf, if_neg he]
    exact ih fun x hx => h x (List.mem_cons_of_mem e hx)

/-- Giving `Entity` an explicit name other than the class name renames the
record out from under `getMeta`'s `record.name === constructor.name` lookup:
afterwards `getMeta` on that class sees only a fresh default record. -/
theorem metaOf_entity_rename (s : Store) (cls nm : String) (hnm : nm ≠ cls)
    (hone : (s.countP fun e => e.name == cls) ≤ 1) :
    metaOf (Entity (.str nm) none cls s) cls = defaultEntity cls := by
  show metaOf (withMeta cls (entityUpd (.str nm) none cls) s) cls = _
  induction s with
  | nil =>
    have hn : (entityUpd (.str nm) none cls (defaultEntity cls)).name = nm :=
      entityUpd_name _ _ _ _
    have : (entityUpd (.str nm) none cls (defaultEntity cls)).name ≠ cls := by
      rw [hn]; exact hnm
    simp [withMeta, metaOf, this]
  | cons e rest ih =>
    by_cases he : e.name = cls
    · have hn : (entityUpd (.str nm) none cls e).name = nm := entityUpd_name _ _ _ _
      have hne : (entityUpd (.str nm) none cls e).name ≠ cls := by
        rw [hn]; exact hnm
      have hcount : (rest.countP fun x => x.name == cls) = 0 := by
        rw [List.countP_cons] at hone
        have hpe : (e.name == cls) = true := beq_iff_eq.mpr he
        simp only [hpe, if_true] at hone
        omega
      have hrest : ∀ x ∈ rest, x.name ≠ cls := by
        intro x hx
        have := List.countP_eq_zero.mp hcount x hx
        simpa using this
      simp only [withMeta, if_pos he, metaOf, if_neg hne]
      exact metaOf_of_not_named rest cls hrest
    · rw [List.countP_cons] at hone
      have hpe : (e.name == cls) = false := beq_eq_false_iff_ne.mpr he
      simp only [hpe, if_false] at hone
      simp only [withMeta, if_neg he, metaOf, if_neg he]
      exact ih (by simpa using hone)

/-- `ks` lists the decorated properties (with each decoration's `unique`
option) of a sequence of `Index` decorations sharing the name `n`. -/
def applyIndexSeq (n cls : String) (ks : List (String × Option Bool)) (s : Store) : Store :=
  ks.foldl (fun s' p => Index (some { name := some n, unique := p.2 }) cls p.1 s') s

theorem indexListUpd_named (n key : String) (u : Option Bool) (idxs : List IndexDef)
    (acc : List String)
    (hall : ∀ i ∈ idxs, i.name = some n → i.fields = acc)
    (hex : acc ≠ [] → ∃ i ∈ idxs, i.name = some n) :
    (∀ i ∈ indexListUpd { name := some n, unique := u } key idxs,
      i.name = some n → i.fields = acc ++ [key]) ∧
    (∃ i ∈ indexListUpd { name := some n, unique := u } key idxs, i.name = some n) := by
  cases hf : idxs.find? (fun i => decide (i.name = some n)) with
  | some i0 =>
    have hi0n : i0.name = some n := by
      have := List.find?_some hf
      exact of_decide_eq_true this
    have hi0m : i0 ∈ idxs := List.mem_of_find?_eq_some hf
    have hi0f : i0.fields = acc := hall i0 hi0m hi0n
    have hres : indexListUpd { name := some n, unique := u } key idxs =
        (idxs.map fun i => if i.name = some n then { i with fields := i0.fields ++ [key] }
          else i) ++ [{ i0 with fields := i0.fields ++ [key] }] := by
      simp [indexListUpd, hf]
    rw [hres]
    constructor
    · intro i hi hni
      rcases List.mem_append.mp hi with h | h
      · obtain ⟨j, hj, hji⟩ := List.mem_map.mp h
        by_cases hjn : j.name = some n
        · rw [← hji, if_pos hjn]
          simp [hi0f]
        · rw [← hji, if_neg hjn] at hni ⊢
          exact absurd hni hjn
      · have : i = { i0 with fields := i0.fields ++ [key] } := by simpa using h
        rw [this]
        simp [hi0f]
    · refine ⟨{ i0 with fields := i0.fields ++ [key] }, ?_, ?_⟩
      · exact List.mem_append.mpr (Or.inr (List.mem_singleton.mpr rfl))
      · simpa using hi0n
  | none =>
    have hnone : ∀ i ∈ idxs, i.name ≠ some n := by
      intro i hi
      have := List.find?_eq_none.mp hf i hi
      simpa using this
    have hacc : acc = [] := by
      by_contra hacc
      obtain ⟨i, hi, hni⟩ := hex hacc
      exact hnone i hi hni
    have hres : indexListUpd { name := some n, unique := u } key idxs =
        idxs ++ [{ name := some n, unique := u, fields := [key] }] := by
      simp [indexListUpd, hf]
    rw [hres, hacc]
    constructor
    · intro i hi hni
      rcases List.mem_append.mp hi with h | h
      · exact absurd hni (hnone i h)
      · have : i = { name := some n, unique := u, fields := [key] } := by simpa using h
        rw [this]
        simp
    · exact ⟨{ name := some n, unique := u, fields := [key] },
        List.mem_append.mpr (Or.inr (List.mem_singleton.mpr rfl)), rfl⟩

theorem applyIndexSeq_char (n cls : String) (ks : List (String × Option Bool)) (s : Store)
    (acc : List String)
    (hall : ∀ i ∈ (metaOf s cls).options.indexes.getD [], i.name = some n → i.fields = acc)
    (hex : acc ≠ [] → ∃ i ∈ (metaOf s cls).options.indexes.getD [], i.name = some n) :
    (∀ i ∈ (metaOf (applyIndexSeq n cls ks s) cls).options.indexes.getD [],
      i.name = some n → i.fields = acc ++ ks.map Prod.fst) ∧
    (acc ++ ks.map Prod.fst ≠ [] →
      ∃ i ∈ (metaOf (applyIndexSeq n cls ks s) cls).options.indexes.getD [],
        i.name = some n) := by
  induction ks generalizing s acc with
  | nil =>
    simpa [applyIndexSeq] using ⟨hall, fun h => hex h⟩
  | cons p rest ih =>
    have hstep : applyIndexSeq n cls (p :: rest) s =
        applyIndexSeq n cls rest
          (Index (some { name := some n, unique := p.2 }) cls p.1 s) := rfl
    have hmeta : metaOf (Index (some { name := some n, unique := p.2 }) cls p.1 s) cls =
        indexUpd { name := some n, unique := p.2 } p.1 (metaOf s cls) := by
      have hpres : ∀ e : IEntity, e.name = cls →
          (indexUpd { name := some n, unique := p.2 } p.1 e).name = cls := fun e he => he
      show metaOf (withMeta cls (indexUpd { name := some n, unique := p.2 } p.1) s) cls = _
      rw [metaOf_withMeta s cls cls (indexUpd { name := some n, unique := p.2 } p.1) hpres,
        if_pos rfl]
    have hidx : (metaOf (Index (some { name := some n, unique := p.2 }) cls p.1 s)
        cls).options.indexes.getD [] =
        indexListUpd { name := some n, unique := p.2 } p.1
          ((metaOf s cls).options.indexes.getD []) := by
      rw [hmeta]
      rfl
    obtain ⟨hall1, hex1⟩ :=
      indexListUpd_named n p.1 p.2 ((metaOf s cls).options.indexes.getD []) acc hall hex
    rw [← hidx] at hall1 hex1
    obtain ⟨hallr, hexr⟩ := ih _ (acc ++ [p.1]) hall1 (fun _ => hex1)
    constructor
    · intro i hi hni
      rw [hstep] at hi
      have hfe := hallr i hi hni
      rw [hfe, List.append_assoc]
      rfl
    · intro _
      rw [hstep]
      apply hexr
      simp

/-- Claim C1 counterexample. The claim says that an association whose target
class was never registered is silently skipped, with no association accessor
added to the model. On the concrete input below (class `A` declaring a
`HasOne` to the unregistered class `B`), pass 2 does NOT skip the
association: it invokes the engine's association-creation method with the
missing (undefined) target model and assigns the result, so an accessor IS
recorded under `"b"` (with `target = none`), refuting the claim's "no
association accessor is added". (With a real engine, such a call throws
rather than being skipped; the source has no guard on the target.) -/
theorem c1_counterexample :
    ((List.lookup "A" (registerEntities
        (Entity .noArg none "A" (HasOne "B" none "A" "b" [])) ["A"])).map
      (fun m => m.accessors)) =
      some [("b", { method := "hasOne", target := none, association := { asName := some "b" } })] ∧
    ¬((List.lookup "A" (registerEntities
        (Entity .noArg none "A" (HasOne "B" none "A" "b" [])) ["A"])).map
      (fun m => m.accessors)) = some [] := by
  constructor
  · decide
  · decide

/-- Claim C1 (amended): when an entity declares an association whose target
class is not among the registered entities, `registerEntities` does not skip
it: the association-creation call is still made, handing the engine a
missing target model (`target = none` in the recorded accessor), and its
result is stored on the model under the property name. Associations are only
skipped when the entity's own model is missing under its class name. -/
theorem c1_theorem (s : Store) (es : List String) (e k : String) (a : IEntityAssociation)
    (hnd : es.Nodup) (he : e ∈ es)
    (hkeys : ((metaOf s e).associations.map Prod.fst).Nodup)
    (hmem : (k, a) ∈ (metaOf s e).associations)
    (htgt : a.target ∉ es) :
    List.lookup k (((List.lookup e (registerEntities s es)).getD
      (mkModel (defaultEntity e))).accessors) =
      some { method := a.method, target := none, association := a.association } := by
  rw [lookup_registerEntities s es e hnd he]
  show List.lookup k (finalModel s es e).accessors = _
  have : List.lookup k (finalModel s es e).accessors = some (accessorFor es a) :=
    expectedAccessors_lookup es (metaOf s e).associations k a hkeys hmem
  rw [this]
  simp [accessorFor, htgt]

theorem c1_witness :
    (["A"] : List String).Nodup ∧
    (("b", (⟨"B", "hasOne", { asName := some "b" }⟩ : IEntityAssociation)) ∈
      (metaOf (HasOne "B" none "A" "b" []) "A").associations) ∧
    ("B" ∉ (["A"] : List String)) ∧
    List.lookup "b" (((List.lookup "A"
        (registerEntities (HasOne "B" none "A" "b" []) ["A"])).getD
      (mkModel (defaultEntity "A"))).accessors) =
      some { method := "hasOne", target := none, association := { asName := some "b" } } :=
  ⟨by decide, by decide, by decide,
    c1_theorem (HasOne "B" none "A" "b" []) ["A"] "A" "b"
      ⟨"B", "hasOne", { asName := some "b" }⟩
      (by decide) (by decide) (by decide) (by decide) (by decide)⟩

/-- Claim C2 counterexample. The claim says `ManyToMany` without a `through`
option throws AND leaves the class's stored metadata unchanged. On an
undecorated class (empty store), the call does throw, but the store is NOT
left unchanged: `getMeta` runs before the check and pushes a fresh default
record for the class, so the store grows from `[]` to one record. -/
theorem c2_counterexample :
    (ManyToMany "T" none "C" "k" ([] : Store)).2.isSome = true ∧
    (ManyToMany "T" none "C" "k" ([] : Store)).1 ≠ ([] : Store) := by
  constructor
  · decide
  · decide

/-- Claim C2 (amended): `ManyToMany` with options `null` or without `through`
throws at decoration time and stores no association; the store after the
throw is exactly the store after the lazy `getMeta` (a fresh default record
is created when the class had none), and the record contents `getMeta`
observes for the class are unchanged. -/
theorem c2_theorem (typeF : String) (options : Option AssociationOptions)
    (cls key : String) (s : Store)
    (h : (options.getD {}).through = none) :
    (ManyToMany typeF options cls key s).2 =
      some "through property is required for belongs to many association" ∧
    (ManyToMany typeF options cls key s).1 = ensureMeta s cls ∧
    metaOf (ensureMeta s cls) cls = metaOf s cls := by
  refine ⟨?_, ?_, metaOf_ensureMeta s cls cls⟩
  · simp [ManyToMany, h]
  · simp [ManyToMany, h]

theorem c2_witness :
    ((none : Option AssociationOptions).getD {}).through = none ∧
    (ManyToMany "T" none "C" "k" ([] : Store)).2 =
      some "through property is required for belongs to many association" ∧
    (ManyToMany "T" none "C" "k" ([] : Store)).1 = ensureMeta [] "C" ∧
    metaOf (ensureMeta [] "C") "C" = metaOf [] "C" :=
  ⟨by decide, c2_theorem "T" none "C" "k" [] (by decide)⟩

/-- Claim C3: a sequence of `Index` decorations sharing the index name `n`
(applied to properties `ks`, each with its own `unique` option) leaves, for
every stored index carrying that name, a fields list of exactly the
decorated property names in declaration order; at least one such index is
stored. (The source pushes the aliased index object once per decoration, so
the list holds several entries for the name, but each shows the full
accumulated fields list.) -/
theorem c3_theorem (cls n : String) (ks : List (String × Option Bool)) (s : Store)
    (h0 : ∀ i ∈ (metaOf s cls).options.indexes.getD [], i.name ≠ some n)
    (hne : ks ≠ []) :
    (∃ i ∈ (metaOf (applyIndexSeq n cls ks s) cls).options.indexes.getD [],
      i.name = some n) ∧
    ∀ i ∈ (metaOf (applyIndexSeq n cls ks s) cls).options.indexes.getD [],
      i.name = some n → i.fields = ks.map Prod.fst := by
  obtain ⟨hall, hex⟩ := applyIndexSeq_char n cls ks s []
    (fun i hi hni => absurd hni (h0 i hi)) (fun h => absurd rfl h)
  constructor
  · apply hex
    simpa using hne
  · intro i hi hni
    simpa using hall i hi hni

theorem c3_witness :
    (∀ i ∈ (metaOf ([] : Store) "C").options.indexes.getD [], i.name ≠ some "n") ∧
    ([("k1", (none : Option Bool)), ("k2", some true)] ≠
      ([] : List (String × Option Bool))) ∧
    ((∃ i ∈ (metaOf (applyIndexSeq "n" "C" [("k1", none), ("k2", some true)] [])
        "C").options.indexes.getD [], i.name = some "n") ∧
      ∀ i ∈ (metaOf (applyIndexSeq "n" "C" [("k1", none), ("k2", some true)] [])
        "C").options.indexes.getD [],
        i.name = some "n" → i.fields = ["k1", "k2"]) :=
  ⟨by simp [metaOf, defaultEntity], by decide,
    c3_theorem "C" "n" [("k1", none), ("k2", some true)] []
      (by simp [metaOf, defaultEntity]) (by decide)⟩

/-- Claim C4: in every run of `registerEntities`, the engine-call trace
splits into a first block of exactly one model-definition call per listed
entity followed by a block of association-creation calls only: every define
(pass 1) completes before any association call (pass 2) is made. -/
theorem c4_theorem (s : Store) (es : List String) :
    ∃ t1 t2, (registerEntitiesFull s es).trace = t1 ++ t2 ∧
      t1.length = es.length ∧
      (∀ c ∈ t1, isDefineCall c = true) ∧
      (∀ c ∈ t2, isDefineCall c = false) := by
  obtain ⟨d, hd, hlen, hall⟩ := passOne_trace es { store := s }
  obtain ⟨a, ha, hall2⟩ := passTwo_trace es (passOne { store := s } es)
  refine ⟨d, a, ?_, hlen, hall, hall2⟩
  show (passTwo (passOne { store := s } es) es).trace = _
  rw [ha, hd]
  simp

/-- Claim C5: applying the `Entity` decorator twice with no name and no
options is idempotent — the second application leaves the store exactly as
the first left it — and the stored metadata name equals the class's own
name. -/
theorem c5_theorem (cls : String) (s : Store) :
    Entity .noArg none cls (Entity .noArg none cls s) = Entity .noArg none cls s ∧
    (metaOf (Entity .noArg none cls s) cls).name = cls := by
  have hpres : ∀ e : IEntity, e.name = cls → (entityUpd .noArg none cls e).name = cls :=
    fun e _ => entityUpd_name .noArg none cls e
  constructor
  · exact withMeta_idem s cls (entityUpd .noArg none cls) hpres
      (fun e _ => entityUpd_noArg_idem cls e)
  · show (metaOf (withMeta cls (entityUpd .noArg none cls) s) cls).name = cls
    rw [metaOf_withMeta s cls cls (entityUpd .noArg none cls) hpres, if_pos rfl]
    exact entityUpd_name .noArg none cls (metaOf s cls)

/-- Claim C6 counterexample. The claim says registration is keyed by the
entity's STORED entity name. Decorating class `C` with `Entity("X")` stores
a record named `"X"`; registering `[C]` produces exactly one model handle,
but it is keyed under the class name `"C"` — looking the mapping up under
the stored entity name `"X"` finds nothing (the rename orphaned the record,
so pass 1 defined a fresh empty model under the class name). -/
theorem c6_counterexample :
    (Entity (.str "X") none "C" ([] : Store)).map (fun e => e.name) = ["X"] ∧
    List.lookup "X" (registerEntities (Entity (.str "X") none "C" []) ["C"]) = none ∧
    (registerEntities (Entity (.str "X") none "C" []) ["C"]).length = 1 := by
  refine ⟨by decide, by decide, by decide⟩

/-- Claim C6 (amended): for N decorated entities with pairwise-distinct class
names, none declaring an association, `registerEntities` returns exactly N
model handles, one per entity in order, keyed by the entity's CLASS name
(which equals the stored entity name whenever the `Entity` decorator did not
rename the record), each holding the metadata `getMeta` finds under that
class name. -/
theorem c6_theorem (s : Store) (es : List String) (hnd : es.Nodup)
    (hassoc : ∀ e ∈ es, (metaOf s e).associations = []) :
    registerEntities s es = es.map (fun e => (e, mkModel (metaOf s e))) ∧
    (registerEntities s es).length = es.length ∧
    (registerEntities s es).map Prod.fst = es := by
  rw [registerEntities_char s es hnd]
  refine ⟨?_, by simp, ?_⟩
  · apply List.map_congr_left
    intro e he
    show (e, finalModel s es e) = (e, mkModel (metaOf s e))
    simp only [finalModel, hassoc e he, expectedAccessors, List.foldl_nil]
    rfl
  · rw [List.map_map,
      show (Prod.fst ∘ fun e => (e, finalModel s es e)) = id from funext fun e => rfl]
    exact List.map_id es

theorem c6_witness :
    (["A", "B"] : List String).Nodup ∧
    (∀ e ∈ (["A", "B"] : List String),
      (metaOf (Entity .noArg none "A" (Entity .noArg none "B" [])) e).associations = []) ∧
    registerEntities (Entity .noArg none "A" (Entity .noArg none "B" [])) ["A", "B"] =
      (["A", "B"] : List String).map (fun e =>
        (e, mkModel (metaOf (Entity .noArg none "A" (Entity .noArg none "B" [])) e))) :=
  ⟨by decide, by decide,
    ( c6_theorem (Entity .noArg none "A" (Entity .noArg none "B" [])) ["A", "B"]
      (by decide) (by decide)).1⟩

/-- Claim C7: every metadata-store operation touches only the targeted part
of the targeted class's record. The store level (`FramedAt`): only the first
record named for the decorated class is replaced (or a fresh one appended
when none exists); every other record — in particular every other class's —
is untouched. The record level: each operation's update function preserves
every component other than the one it targets — `Column` only the one field,
the association decorators only the one association entry, the timestamp
decorators only their timestamp option, `Index` only the `indexes` option
(and within it leaves indexes with other names in place), and `Entity` the
name and options, preserving every option value already present. A
`ManyToMany` without `through` changes the store only by the lazy `getMeta`
(the identity on the found record). -/
theorem c7_theorem (s : Store) (cls key k : String) (attr : ColumnDef) (t : String)
    (aopts : Option AssociationOptions) (iopts : IIndexOptions) (nameArg : NameArg)
    (eopts : Option DefineOptions) (hk : k ≠ key) :
    FramedAt s (Column attr cls key s) cls (columnUpd key attr) ∧
    FramedAt s (HasOne t aopts cls key s) cls
      (assocUpd key ⟨t, "hasOne", setAs aopts key⟩) ∧
    FramedAt s (HasMany t aopts cls key s) cls
      (assocUpd key ⟨t, "hasMany", setAs aopts key⟩) ∧
    FramedAt s (BelongsTo t aopts cls key s) cls
      (assocUpd key ⟨t, "belongsTo", setAs aopts key⟩) ∧
    ((aopts.getD {}).through ≠ none →
      FramedAt s (ManyToMany t aopts cls key s).1 cls
        (assocUpd key ⟨t, "belongsToMany", setAs aopts key⟩)) ∧
    ((aopts.getD {}).through = none →
      FramedAt s (ManyToMany t aopts cls key s).1 cls id) ∧
    FramedAt s (Index (some iopts) cls key s) cls (indexUpd iopts key) ∧
    FramedAt s (CreatedDateColumn cls key s) cls (createdUpd key) ∧
    FramedAt s (UpdatedDateColumn cls key s) cls (updatedUpd key) ∧
    FramedAt s (Entity nameArg eopts cls s) cls (entityUpd nameArg eopts cls) ∧
    (∀ m : IEntity,
      (columnUpd key attr m).name = m.name ∧
      (columnUpd key attr m).associations = m.associations ∧
      (columnUpd key attr m).options = m.options ∧
      List.lookup k (columnUpd key attr m).fields = List.lookup k m.fields) ∧
    (∀ (m : IEntity) (a : IEntityAssociation),
      (assocUpd key a m).name = m.name ∧
      (assocUpd key a m).fields = m.fields ∧
      (assocUpd key a m).options = m.options ∧
      List.lookup k (assocUpd key a m).associations = List.lookup k m.associations) ∧
    (∀ m : IEntity,
      (createdUpd key m).name = m.name ∧
      (createdUpd key m).fields = m.fields ∧
      (createdUpd key m).associations = m.associations ∧
      (createdUpd key m).options.updatedAt = m.options.updatedAt ∧
      (createdUpd key m).options.indexes = m.options.indexes ∧
      (createdUpd key m).options.extra = m.options.extra) ∧
    (∀ m : IEntity,
      (updatedUpd key m).name = m.name ∧
      (updatedUpd key m).fields = m.fields ∧
      (updatedUpd key m).associations = m.associations ∧
      (updatedUpd key m).options.createdAt = m.options.createdAt ∧
      (updatedUpd key m).options.indexes = m.options.indexes ∧
      (updatedUpd key m).options.extra = m.options.extra) ∧
    (∀ m : IEntity,
      (indexUpd iopts key m).name = m.name ∧
      (indexUpd iopts key m).fields = m.fields ∧
      (indexUpd iopts key m).associations = m.associations ∧
      (indexUpd iopts key m).options.createdAt = m.options.createdAt ∧
      (indexUpd iopts key m).options.updatedAt = m.options.updatedAt ∧
      (indexUpd iopts key m).options.extra = m.options.extra ∧
      ∀ i ∈ m.options.indexes.getD [],
        (∀ nn, iopts.name = some nn → i.name ≠ some nn) →
        i ∈ (indexUpd iopts key m).options.indexes.getD []) ∧
    (∀ m : IEntity,
      (entityUpd nameArg eopts cls m).fields = m.fields ∧
      (entityUpd nameArg eopts cls m).associations = m.associations ∧
      (∀ v, m.options.createdAt = some v →
        (entityUpd nameArg eopts cls m).options.createdAt = some v) ∧
      (∀ v, m.options.updatedAt = some v →
        (entityUpd nameArg eopts cls m).options.updatedAt = some v) ∧
      (∀ l, m.options.indexes = some l →
        (entityUpd nameArg eopts cls m).options.indexes = some l) ∧
      (∀ kk vv, List.lookup kk m.options.extra = some vv →
        List.lookup kk (entityUpd nameArg eopts cls m).options.extra = some vv)) := by
  refine ⟨withMeta_framed s cls _, withMeta_framed s cls _, withMeta_framed s cls _,
    withMeta_framed s cls _, ?_, ?_, withMeta_framed s cls _, withMeta_framed s cls _,
    withMeta_framed s cls _, withMeta_framed s cls _, ?_, ?_, ?_, ?_, ?_, ?_⟩
  · intro h
    have hm : (ManyToMany t aopts cls key s).1 =
        withMeta cls (assocUpd key ⟨t, "belongsToMany", setAs aopts key⟩) s := by
      simp [ManyToMany, h]
    rw [hm]
    exact withMeta_framed s cls _
  · intro h
    have hm : (ManyToMany t aopts cls key s).1 = ensureMeta s cls := by
      simp [ManyToMany, h]
    rw [hm, ensureMeta_eq_withMeta_id]
    exact withMeta_framed s cls _
  · intro m
    exact ⟨rfl, rfl, rfl, setKey_lookup_ne m.fields key k attr hk⟩
  · intro m a
    exact ⟨rfl, rfl, rfl, setKey_lookup_ne m.associations key k a hk⟩
  · intro m
    exact ⟨rfl, rfl, rfl, rfl, rfl, rfl⟩
  · intro m
    exact ⟨rfl, rfl, rfl, rfl, rfl, rfl⟩
  · intro m
    refine ⟨rfl, rfl, rfl, rfl, rfl, rfl, ?_⟩
    intro i hi hother
    show i ∈ indexListUpd iopts key (m.options.indexes.getD [])
    cases hn : iopts.name with
    | none =>
      simp only [indexListUpd, hn]
      exact List.mem_append_left _ hi
    | some nn =>
      have hne : i.name ≠ some nn := hother nn hn
      simp only [indexListUpd, hn]
      cases hf : (m.options.indexes.getD []).find? (fun j => decide (j.name = some nn)) with
      | some i0 =>
        apply List.mem_append_left
        exact List.mem_map.mpr ⟨i, hi, by rw [if_neg hne]⟩
      | none =>
        exact List.mem_append_left _ hi
  · intro m
    exact ⟨entityUpd_fields nameArg eopts cls m, entityUpd_associations nameArg eopts cls m,
      fun v hv => entityUpd_createdAt_some nameArg eopts cls m v hv,
      fun v hv => entityUpd_updatedAt_some nameArg eopts cls m v hv,
      fun l hl => entityUpd_indexes_some nameArg eopts cls m l hl,
      fun kk vv hv => entityUpd_extra_lookup nameArg eopts cls m kk vv hv⟩

theorem c7_witness :
    ("other" ≠ "key") ∧
    List.lookup "other" (columnUpd "key" pkColumn (defaultEntity "C")).fields =
      List.lookup "other" (defaultEntity "C").fields ∧
    FramedAt [] (Column pkColumn "C" "key" []) "C" (columnUpd "key" pkColumn) :=
  ⟨by decide,
    (( c7_theorem [] "C" "key" "other" pkColumn "T" none {} .noArg none
      (by decide)).2.2.2.2.2.2.2.2.2.2.1 (defaultEntity "C")).2.2.2,
    ( c7_theorem [] "C" "key" "other" pkColumn "T" none {} .noArg none (by decide)).1⟩

/-- Claim C8 counterexample. The claim says pass 2 looks the model up under
the class's own name and finds NONE. Concretely: class `C` renamed to `"X"`
by its `Entity` decorator, declaring a `HasOne` to the registered class `T`.
Pass 1's `getMeta` cannot find the renamed record, creates a fresh empty one
named `"C"` and defines a model under `"C"` — so pass 2's lookup under the
class name SUCCEEDS (`isSome`), returning that empty junk model; the
declared association is dropped because the fresh record has none, not
because the lookup fails. -/
theorem c8_counterexample :
    (List.lookup "C" (registerEntities
      (Entity (.str "X") none "C"
        (Entity .noArg none "T" (HasOne "T" none "C" "rel" []))) ["C", "T"])).isSome =
      true ∧
    List.lookup "C" (registerEntities
      (Entity (.str "X") none "C"
        (Entity .noArg none "T" (HasOne "T" none "C" "rel" []))) ["C", "T"]) =
      some (mkModel (defaultEntity "C")) := by
  refine ⟨by decide, by decide⟩

/-- Claim C8 (amended): renaming an entity with an explicit `Entity` name
other than the class name orphans its metadata record (`getMeta` keys on the
constructor name). `registerEntities` then sees only a fresh default record:
pass 1 defines an EMPTY model under the class's own name, pass 2 finds that
model (the lookup succeeds) but walks the fresh record's empty association
set, so none of the entity's declared associations — or fields, or options —
reach the engine, even when every target is registered. -/
theorem c8_theorem (s : Store) (cls nm : String) (es : List String)
    (hnm : nm ≠ cls)
    (hone : (s.countP fun e => e.name == cls) ≤ 1)
    (hnd : es.Nodup) (hcls : cls ∈ es) :
    metaOf (Entity (.str nm) none cls s) cls = defaultEntity cls ∧
    List.lookup cls (registerEntities (Entity (.str nm) none cls s) es) =
      some (mkModel (defaultEntity cls)) := by
  have h1 := metaOf_entity_rename s cls nm hnm hone
  refine ⟨h1, ?_⟩
  rw [lookup_registerEntities _ es cls hnd hcls]
  simp only [finalModel, h1, expectedAccessors, List.foldl_nil]
  rfl

theorem c8_witness :
    ("X" ≠ "C") ∧
    (((HasOne "T" none "C" "rel" []).countP fun e => e.name == "C") ≤ 1) ∧
    (["C", "T"] : List String).Nodup ∧
    metaOf (Entity (.str "X") none "C" (HasOne "T" none "C" "rel" [])) "C" =
      defaultEntity "C" ∧
    List.lookup "C" (registerEntities
      (Entity (.str "X") none "C" (HasOne "T" none "C" "rel" [])) ["C", "T"]) =
      some (mkModel (defaultEntity "C")) :=
  ⟨by decide, by decide, by decide,
    ( c8_theorem (HasOne "T" none "C" "rel" []) "C" "X" ["C", "T"]
      (by decide) (by decide) (by decide) (by decide)).1,
    ( c8_theorem (HasOne "T" none "C" "rel" []) "C" "X" ["C", "T"]
      (by decide) (by decide) (by decide) (by decide)).2⟩

/-- Claim C9: every association decorator stores association options whose
`as` value is the decorated property name, regardless of any `as` the caller
supplied (the decorator overwrites `options.as = key` before storing); for
`ManyToMany` this holds on the non-throwing path (`through` present). -/
theorem c9_theorem (t : String) (options : Option AssociationOptions) (cls key : String)
    (s : Store) :
    List.lookup key (metaOf (HasOne t options cls key s) cls).associations =
      some ⟨t, "hasOne", { options.getD {} with asName := some key }⟩ ∧
    List.lookup key (metaOf (HasMany t options cls key s) cls).associations =
      some ⟨t, "hasMany", { options.getD {} with asName := some key }⟩ ∧
    List.lookup key (metaOf (BelongsTo t options cls key s) cls).associations =
      some ⟨t, "belongsTo", { options.getD {} with asName := some key }⟩ ∧
    ((options.getD {}).through ≠ none →
      List.lookup key (metaOf (ManyToMany t options cls key s).1 cls).associations =
        some ⟨t, "belongsToMany", { options.getD {} with asName := some key }⟩) := by
  have hkey : ∀ method : String,
      List.lookup key (metaOf (withMeta cls
        (assocUpd key ⟨t, method, setAs options key⟩) s) cls).associations =
      some ⟨t, method, { options.getD {} with asName := some key }⟩ := by
    intro method
    rw [metaOf_withMeta s cls cls (assocUpd key ⟨t, method, setAs options key⟩)
      (fun e he => he), if_pos rfl]
    show List.lookup key (setKey (metaOf s cls).associations key _) = _
    rw [setKey_lookup_self]
    rfl
  refine ⟨hkey "hasOne", hkey "hasMany", hkey "belongsTo", ?_⟩
  intro h
  have hm : (ManyToMany t options cls key s).1 =
      withMeta cls (assocUpd key ⟨t, "belongsToMany", setAs options key⟩) s := by
    simp [ManyToMany, h]
  rw [hm]
  exact hkey "belongsToMany"

theorem c9_witness :
    ((some { asName := some "caller", through := some "J" }
      : Option AssociationOptions).getD {}).through ≠ none ∧
    List.lookup "prop" (metaOf (ManyToMany "T"
        (some { asName := some "caller", through := some "J" }) "C" "prop" []).1
      "C").associations =
      some ⟨"T", "belongsToMany", { asName := some "prop", through := some "J" }⟩ :=
  ⟨by decide,
    ( c9_theorem "T" (some { asName := some "caller", through := some "J" }) "C" "prop"
      []).2.2.2 (by decide)⟩

/-- Claim C10: after the `Entity` decorator runs on a class, the stored
`createdAt` / `updatedAt` options are `false` whenever neither the existing
metadata nor the decorator's own options supplied a value, and any value
already stored — in particular the column name a `CreatedDateColumn` /
`UpdatedDateColumn` decorator set — is preserved. (Stated for `Entity` calls
that do not rename the record away from the class name.) -/
theorem c10_theorem (nameArg : NameArg) (options : Option DefineOptions)
    (cls key : String) (s : Store)
    (hn : ∀ n, nameArg = .str n → n = cls) :
    (∀ v, (metaOf s cls).options.createdAt = some v →
      (metaOf (Entity nameArg options cls s) cls).options.createdAt = some v) ∧
    (∀ v, (metaOf s cls).options.updatedAt = some v →
      (metaOf (Entity nameArg options cls s) cls).options.updatedAt = some v) ∧
    ((metaOf s cls).options.createdAt = none → (options.getD {}).createdAt = none →
      (∀ o, nameArg = .obj o → o.createdAt = none) →
      (metaOf (Entity nameArg options cls s) cls).options.createdAt = some .off) ∧
    ((metaOf s cls).options.updatedAt = none → (options.getD {}).updatedAt = none →
      (∀ o, nameArg = .obj o → o.updatedAt = none) →
      (metaOf (Entity nameArg options cls s) cls).options.updatedAt = some .off) ∧
    ((metaOf (Entity nameArg options cls (CreatedDateColumn cls key s)) cls).options.createdAt =
      some (.col key)) ∧
    ((metaOf (Entity nameArg options cls (UpdatedDateColumn cls key s)) cls).options.updatedAt =
      some (.col key)) := by
  have hpres : ∀ e : IEntity, e.name = cls → (entityUpd nameArg options cls e).name = cls := by
    intro e he
    cases nameArg with
    | noArg => exact entityUpd_name .noArg options cls e
    | str n => rw [entityUpd_name]; exact hn n rfl
    | obj o => exact entityUpd_name (.obj o) options cls e
  have hmeta : ∀ s' : Store,
      metaOf (Entity nameArg options cls s') cls = entityUpd nameArg options cls (metaOf s' cls) := by
    intro s'
    show metaOf (withMeta cls (entityUpd nameArg options cls) s') cls = _
    rw [metaOf_withMeta s' cls cls (entityUpd nameArg options cls) hpres, if_pos rfl]
  have hmetaC : metaOf (CreatedDateColumn cls key s) cls = createdUpd key (metaOf s cls) := by
    show metaOf (withMeta cls (createdUpd key) s) cls = _
    rw [metaOf_withMeta s cls cls (createdUpd key) (fun e he => he), if_pos rfl]
  have hmetaU : metaOf (UpdatedDateColumn cls key s) cls = updatedUpd key (metaOf s cls) := by
    show metaOf (withMeta cls (updatedUpd key) s) cls = _
    rw [metaOf_withMeta s cls cls (updatedUpd key) (fun e he => he), if_pos rfl]
  refine ⟨?_, ?_, ?_, ?_, ?_, ?_⟩
  · intro v hv
    rw [hmeta s]
    exact entityUpd_createdAt_some nameArg options cls _ v hv
  · intro v hv
    rw [hmeta s]
    exact entityUpd_updatedAt_some nameArg options cls _ v hv
  · intro h1 h2 h3
    rw [hmeta s]
    exact entityUpd_createdAt_none nameArg options cls _ h1 h2 h3
  · intro h1 h2 h3
    rw [hmeta s]
    exact entityUpd_updatedAt_none nameArg options cls _ h1 h2 h3
  · rw [hmeta (CreatedDateColumn cls key s)]
    exact entityUpd_createdAt_some nameArg options cls _ _ (by rw [hmetaC]; rfl)
  · rw [hmeta (UpdatedDateColumn cls key s)]
    exact entityUpd_updatedAt_some nameArg options cls _ _ (by rw [hmetaU]; rfl)

theorem c10_witness :
    (∀ n, NameArg.noArg = NameArg.str n → n = "C") ∧
    (metaOf ([] : Store) "C").options.createdAt = none ∧
    ((none : Option DefineOptions).getD {}).createdAt = none ∧
    (metaOf (Entity .noArg none "C" ([] : Store)) "C").options.createdAt = some .off ∧
    (metaOf (Entity .noArg none "C" (CreatedDateColumn "C" "created" []))
      "C").options.createdAt = some (.col "created") :=
  ⟨fun n h => NameArg.noConfusion h, by decide, by decide,
    ( c10_theorem .noArg none "C" "created" [] (fun n h => NameArg.noConfusion h)).2.2.1
      (by decide) (by decide) (fun o h => NameArg.noConfusion h),
    ( c10_theorem .noArg none "C" "created" [] (fun n h => NameArg.noConfusion h)).2.2.2.2.1⟩

end SD
